import Mathlib

/-!
Verification of the HTree repository (Rust crate `htree`).

The crate exposes `HTree<T>` (an order parameter plus a phantom coordinate
type) and `HTreeIterator<T>`, whose `next` method decodes a linear position
counter into one line segment of an H-tree fractal.  The decoding algorithm
appears twice, once in `src/src/lib.rs` and once in `src/src/htree.rs`; the
two copies are transcribed below as namespaces `Lib` and `Htree`.

Modelling conventions:
* `usize` values (the `index` counter and `order`) are modelled as `Nat`;
  the increment of the counter wraps modulo `2 ^ 64` exactly as `usize`
  does in release builds.
* `u32` arithmetic is modelled on `Nat` with explicit reductions modulo
  `U32 = 2 ^ 32` at every operation the source performs on `u32` values
  (release-build wrapping semantics: wrapping multiplication and
  subtraction, shift amounts masked modulo 32).
* `usize::ilog2` is modelled by the fuel-based `ilog2` below, which agrees
  with floor-log2 on every `usize` value (inputs below `2 ^ 64`); the
  source aborts on input 0, which can only arise after the counter wraps.
* The coordinate type `T : Float` is modelled as `ℚ` with exact
  arithmetic; the constant `SCALE_HEIGHT` is the decimal literal from the
  source read as an exact rational.  All numeric claims about coordinates
  are stated with explicit tolerances, so this idealisation is faithful.
* A call of `next` is modelled by `decode order index` applied to the
  already-incremented counter, returning `NextRes.done` for Rust `None`,
  `NextRes.seg s` for `Some(s)`, and `NextRes.fail` for an aborted call
  (the `assert_eq!` guard failing, or `ilog2` called on 0).
-/

/-- Floor of the base-2 logarithm computed with explicit fuel; one unit of
fuel is consumed per halving, so 64 units suffice for every input below
`2 ^ 64`.  This models `usize::ilog2` on 64-bit targets. -/
def ilog2Fuel : Nat → Nat → Nat
  | 0, _ => 0
  | fuel + 1, n => if 2 ≤ n then ilog2Fuel fuel (n / 2) + 1 else 0

/-- Model of `usize::ilog2` (64-bit): floor-log2 for all inputs below `2 ^ 64`. -/
def ilog2 (n : Nat) : Nat := ilog2Fuel 64 n

/-- Modulus of `u32` arithmetic, `2 ^ 32`. -/
def U32 : Nat := 4294967296

/-- Modulus of `usize` arithmetic on 64-bit targets, `2 ^ 64`. -/
def U64 : Nat := 18446744073709551616

/-- One H-tree line segment: a start point and an end point, each an
`(x, y)` pair.  Models the iterator item type `((T, T), (T, T))`. -/
abbrev Seg : Type := (ℚ × ℚ) × (ℚ × ℚ)

/-- Result of one `next` call: `done` models `None` (end of sequence),
`seg` models `Some(segment)`, and `fail` models an aborted call (a failed
`assert_eq!` or `ilog2(0)`). -/
inductive NextRes where
  | done : NextRes
  | fail : NextRes
  | seg : Seg → NextRes
deriving DecidableEq

/-- True exactly when the call produced a segment. -/
def NextRes.isSeg : NextRes → Bool
  | .seg _ => true
  | _ => false

namespace Lib

/-! Transcription of `src/src/lib.rs`. -/

/-- Line 11: `const SCALE_HEIGHT: f64 = 0.7071067811865475244;`, read as an
exact rational. -/
def SCALE_HEIGHT : ℚ := 7071067811865475244 / 10 ^ 19

/-- Lines 14-18: `HTree<T>` holds the order; the phantom type marker
carries no data (the coordinate type is fixed to `ℚ` in this model). -/
structure HTree where
  order : Nat
deriving DecidableEq

/-- Lines 41-46: `HTree::new` stores the order unchecked. -/
def HTree.new (order : Nat) : HTree :=
  { order := order }

/-- Lines 20-26: the iterator state: the tree and the position counter. -/
structure HTreeIterator where
  h_tree : HTree
  index : Nat
deriving DecidableEq

/-- Line 55: `let order_index = self.index.ilog2() as u32;` (the cast is
lossless: `ilog2` of a `usize` is at most 63). -/
def order_index (index : Nat) : Nat := ilog2 index

/-- Line 59: `let iteration_index = self.index as u32 - (1u32 << order_index);`
wrapping `u32` subtraction of the masked shift from the truncating cast. -/
def iteration_index (index : Nat) : Nat :=
  (index % U32 + (U32 - 2 ^ (order_index index % 32))) % U32

/-- Line 61: `let num_vertical_rectangles = 1u32 << (order_index + 1) / 2;`. -/
def num_vertical_rectangles (index : Nat) : Nat :=
  2 ^ ((order_index index + 1) / 2 % 32)

/-- Line 62: `let num_horizontal_rectangles = 1u32 << order_index / 2 + 1;`. -/
def num_horizontal_rectangles (index : Nat) : Nat :=
  2 ^ ((order_index index / 2 + 1) % 32)

/-- Line 63: `let num_rectangles = num_vertical_rectangles * num_horizontal_rectangles;`
wrapping `u32` multiplication. -/
def num_rectangles (index : Nat) : Nat :=
  num_vertical_rectangles index * num_horizontal_rectangles index % U32

/-- Line 66: `let rectangle_index = 2 * iteration_index;` wrapping `u32`
multiplication. -/
def rectangle_index (index : Nat) : Nat :=
  2 * iteration_index index % U32

/-- Line 74 (odd branch): `num_y_start = rectangle_index % num_vertical_rectangles;`. -/
def num_y_start_v (index : Nat) : Nat :=
  rectangle_index index % num_vertical_rectangles index

/-- Line 75 (odd branch): `num_x_start = (rectangle_index - num_y_start) / num_vertical_rectangles;`
(the subtraction cannot underflow: the remainder is at most the dividend). -/
def num_x_start_v (index : Nat) : Nat :=
  (rectangle_index index - num_y_start_v index) / num_vertical_rectangles index

/-- Line 76 (odd branch): `num_y_end = (rectangle_index + 1) % num_vertical_rectangles;`
with the wrapping `u32` increment made explicit. -/
def num_y_end_v (index : Nat) : Nat :=
  (rectangle_index index + 1) % U32 % num_vertical_rectangles index

/-- Line 77 (odd branch): `num_x_end = ((rectangle_index + 1) - num_y_end) / num_vertical_rectangles;`. -/
def num_x_end_v (index : Nat) : Nat :=
  ((rectangle_index index + 1) % U32 - num_y_end_v index) / num_vertical_rectangles index

/-- Line 81 (even branch): `num_x_start = rectangle_index % num_horizontal_rectangles;`. -/
def num_x_start_h (index : Nat) : Nat :=
  rectangle_index index % num_horizontal_rectangles index

/-- Line 82 (even branch): `num_y_start = (rectangle_index - num_x_start) / num_horizontal_rectangles;`. -/
def num_y_start_h (index : Nat) : Nat :=
  (rectangle_index index - num_x_start_h index) / num_horizontal_rectangles index

/-- Line 83 (even branch): `num_x_end = (rectangle_index + 1) % num_horizontal_rectangles;`. -/
def num_x_end_h (index : Nat) : Nat :=
  (rectangle_index index + 1) % U32 % num_horizontal_rectangles index

/-- Line 84 (even branch): `num_y_end = ((rectangle_index + 1) - num_x_end) / num_horizontal_rectangles;`. -/
def num_y_end_h (index : Nat) : Nat :=
  ((rectangle_index index + 1) % U32 - num_x_end_h index) / num_horizontal_rectangles index

/-- Lines 71-98: the branch on `order_index % 2` followed by the
normalisation `(c + 0.5) / N` of each grid coordinate and the scaling of
the y components by `SCALE_HEIGHT`. -/
def segOf (index : Nat) : Seg :=
  if order_index index % 2 = 1 then
    ((((num_x_start_v index : ℚ) + 1 / 2) / (num_horizontal_rectangles index : ℚ),
      ((num_y_start_v index : ℚ) + 1 / 2) / (num_vertical_rectangles index : ℚ) * SCALE_HEIGHT),
     (((num_x_end_v index : ℚ) + 1 / 2) / (num_horizontal_rectangles index : ℚ),
      ((num_y_end_v index : ℚ) + 1 / 2) / (num_vertical_rectangles index : ℚ) * SCALE_HEIGHT))
  else
    ((((num_x_start_h index : ℚ) + 1 / 2) / (num_horizontal_rectangles index : ℚ),
      ((num_y_start_h index : ℚ) + 1 / 2) / (num_vertical_rectangles index : ℚ) * SCALE_HEIGHT),
     (((num_x_end_h index : ℚ) + 1 / 2) / (num_horizontal_rectangles index : ℚ),
      ((num_y_end_h index : ℚ) + 1 / 2) / (num_vertical_rectangles index : ℚ) * SCALE_HEIGHT))

/-- Lines 53-99: the body of `HTreeIterator::next` applied to the already
incremented counter `index`.  Checks in source order: `ilog2` aborts on 0,
the termination test `order_index > self.h_tree.order as u32` returns
`None`, the `assert_eq!(num_rectangles >= iteration_index * 2, true)`
guard aborts when false, and otherwise a segment is produced. -/
def decode (order index : Nat) : NextRes :=
  if index = 0 then NextRes.fail
  else if order_index index > order % U32 then NextRes.done
  else if num_rectangles index ≥ iteration_index index * 2 % U32 then
    NextRes.seg (segOf index)
  else NextRes.fail

/-- Lines 53-99 as a state transformer: `self.index += 1` (wrapping as
`usize` does), then the decode of the new counter value. -/
def HTreeIterator.next (it : HTreeIterator) : NextRes × HTreeIterator :=
  (decode it.h_tree.order ((it.index + 1) % U64),
   { h_tree := it.h_tree, index := (it.index + 1) % U64 })

/-- Lines 127-132: `into_iter` starts the counter at 0. -/
def HTree.intoIter (t : HTree) : HTreeIterator :=
  { h_tree := t, index := 0 }

/-- Overflow-free form of `segOf` for a position at level `k` with
within-level offset `off`, obtained from lines 61-98 of the source by
dropping the `u32` reductions (which are the identity whenever the level
is at most 31) and substituting `order_index = k`,
`iteration_index = off`.  `decode_eq_seg` and `segOf_eq_cleanSeg` below
prove that `segOf` agrees with it on every position the iterator can
actually decode to a segment. -/
def cleanSeg (k off : Nat) : Seg :=
  let nv : Nat := 2 ^ ((k + 1) / 2)
  let nh : Nat := 2 ^ (k / 2 + 1)
  let ri : Nat := 2 * off
  if k % 2 = 1 then
    let ys : Nat := ri % nv
    let xs : Nat := (ri - ys) / nv
    let ye : Nat := (ri + 1) % nv
    let xe : Nat := (ri + 1 - ye) / nv
    ((((xs : ℚ) + 1 / 2) / (nh : ℚ), ((ys : ℚ) + 1 / 2) / (nv : ℚ) * SCALE_HEIGHT),
     (((xe : ℚ) + 1 / 2) / (nh : ℚ), ((ye : ℚ) + 1 / 2) / (nv : ℚ) * SCALE_HEIGHT))
  else
    let xs : Nat := ri % nh
    let ys : Nat := (ri - xs) / nh
    let xe : Nat := (ri + 1) % nh
    let ye : Nat := (ri + 1 - xe) / nh
    ((((xs : ℚ) + 1 / 2) / (nh : ℚ), ((ys : ℚ) + 1 / 2) / (nv : ℚ) * SCALE_HEIGHT),
     (((xe : ℚ) + 1 / 2) / (nh : ℚ), ((ye : ℚ) + 1 / 2) / (nv : ℚ) * SCALE_HEIGHT))

end Lib

namespace Htree

/-! Transcription of `src/src/htree.rs` (the second, near-identical copy of
the algorithm; line numbers refer to that file). -/

/-- Line 4: the same scale constant, declared again in this module. -/
def SCALE_HEIGHT : ℚ := 7071067811865475244 / 10 ^ 19

/-- Lines 6-10. -/
structure HTree where
  order : Nat
deriving DecidableEq

/-- Lines 24-29. -/
def HTree.new (order : Nat) : HTree :=
  { order := order }

/-- Lines 12-18. -/
structure HTreeIterator where
  h_tree : HTree
  index : Nat
deriving DecidableEq

/-- Line 38. -/
def order_index (index : Nat) : Nat := ilog2 index

/-- Line 42. -/
def iteration_index (index : Nat) : Nat :=
  (index % U32 + (U32 - 2 ^ (order_index index % 32))) % U32

/-- Line 44. -/
def num_vertical_rectangles (index : Nat) : Nat :=
  2 ^ ((order_index index + 1) / 2 % 32)

/-- Line 45. -/
def num_horizontal_rectangles (index : Nat) : Nat :=
  2 ^ ((order_index index / 2 + 1) % 32)

/-- Line 46. -/
def num_rectangles (index : Nat) : Nat :=
  num_vertical_rectangles index * num_horizontal_rectangles index % U32

/-- Line 49. -/
def rectangle_index (index : Nat) : Nat :=
  2 * iteration_index index % U32

/-- Line 57. -/
def num_y_start_v (index : Nat) : Nat :=
  rectangle_index index % num_vertical_rectangles index

/-- Line 58. -/
def num_x_start_v (index : Nat) : Nat :=
  (rectangle_index index - num_y_start_v index) / num_vertical_rectangles index

/-- Line 59. -/
def num_y_end_v (index : Nat) : Nat :=
  (rectangle_index index + 1) % U32 % num_vertical_rectangles index

/-- Line 60. -/
def num_x_end_v (index : Nat) : Nat :=
  ((rectangle_index index + 1) % U32 - num_y_end_v index) / num_vertical_rectangles index

/-- Line 64. -/
def num_x_start_h (index : Nat) : Nat :=
  rectangle_index index % num_horizontal_rectangles index

/-- Line 65. -/
def num_y_start_h (index : Nat) : Nat :=
  (rectangle_index index - num_x_start_h index) / num_horizontal_rectangles index

/-- Line 66. -/
def num_x_end_h (index : Nat) : Nat :=
  (rectangle_index index + 1) % U32 % num_horizontal_rectangles index

/-- Line 67. -/
def num_y_end_h (index : Nat) : Nat :=
  ((rectangle_index index + 1) % U32 - num_x_end_h index) / num_horizontal_rectangles index

/-- Lines 54-81. -/
def segOf (index : Nat) : Seg :=
  if order_index index % 2 = 1 then
    ((((num_x_start_v index : ℚ) + 1 / 2) / (num_horizontal_rectangles index : ℚ),
      ((num_y_start_v index : ℚ) + 1 / 2) / (num_vertical_rectangles index : ℚ) * SCALE_HEIGHT),
     (((num_x_end_v index : ℚ) + 1 / 2) / (num_horizontal_rectangles index : ℚ),
      ((num_y_end_v index : ℚ) + 1 / 2) / (num_vertical_rectangles index : ℚ) * SCALE_HEIGHT))
  else
    ((((num_x_start_h index : ℚ) + 1 / 2) / (num_horizontal_rectangles index : ℚ),
      ((num_y_start_h index : ℚ) + 1 / 2) / (num_vertical_rectangles index : ℚ) * SCALE_HEIGHT),
     (((num_x_end_h index : ℚ) + 1 / 2) / (num_horizontal_rectangles index : ℚ),
      ((num_y_end_h index : ℚ) + 1 / 2) / (num_vertical_rectangles index : ℚ) * SCALE_HEIGHT))

/-- Lines 36-82: the body of `HTreeIterator::next` in `htree.rs`. -/
def decode (order index : Nat) : NextRes :=
  if index = 0 then NextRes.fail
  else if order_index index > order % U32 then NextRes.done
  else if num_rectangles index ≥ iteration_index index * 2 % U32 then
    NextRes.seg (segOf index)
  else NextRes.fail

/-- Lines 36-82 as a state transformer. -/
def HTreeIterator.next (it : HTreeIterator) : NextRes × HTreeIterator :=
  (decode it.h_tree.order ((it.index + 1) % U64),
   { h_tree := it.h_tree, index := (it.index + 1) % U64 })

/-- Lines 92-97. -/
def HTree.intoIter (t : HTree) : HTreeIterator :=
  { h_tree := t, index := 0 }

end Htree

/-- Bounding-box property of one decoding result: whenever a segment was
produced, both endpoints satisfy `0 ≤ x ≤ 1` and `0 ≤ y ≤ SCALE_HEIGHT`
(the companion arithmetic fact `2 * SCALE_HEIGHT ^ 2 ≤ 1` places
`SCALE_HEIGHT` below `1 / sqrt 2`). -/
def inBox : NextRes → Prop
  | .seg s =>
      0 ≤ s.1.1 ∧ s.1.1 ≤ 1 ∧ 0 ≤ s.1.2 ∧ s.1.2 ≤ Lib.SCALE_HEIGHT ∧
      0 ≤ s.2.1 ∧ s.2.1 ≤ 1 ∧ 0 ≤ s.2.2 ∧ s.2.2 ≤ Lib.SCALE_HEIGHT
  | _ => True

/-- Axis-alignment property at level `k` of one decoding result: whenever a
segment was produced, an even level yields a horizontal bar (equal y
coordinates, x advanced by exactly one grid cell of normalised width
`1 / H` with `H = 2 ^ (k / 2 + 1)`) and an odd level yields a vertical bar
(equal x coordinates, y advanced by exactly one grid cell of normalised
height `SCALE_HEIGHT / V` with `V = 2 ^ ((k + 1) / 2)`). -/
def axisAligned (k : Nat) : NextRes → Prop
  | .seg s =>
      (k % 2 = 0 → s.1.2 = s.2.2 ∧ s.2.1 - s.1.1 = 1 / ((2 ^ (k / 2 + 1) : ℕ) : ℚ)) ∧
      (k % 2 = 1 → s.1.1 = s.2.1 ∧
        s.2.2 - s.1.2 = Lib.SCALE_HEIGHT / ((2 ^ ((k + 1) / 2) : ℕ) : ℚ))
  | _ => True

/-! ### Helper lemmas about `ilog2` -/

theorem ilog2Fuel_le (fuel : Nat) : ∀ n, ilog2Fuel fuel n ≤ fuel := by
  induction fuel with
  | zero => intro n; simp [ilog2Fuel]
  | succ f ih =>
    intro n
    simp only [ilog2Fuel]
    split
    · exact Nat.succ_le_succ (ih _)
    · exact Nat.zero_le _

theorem ilog2Fuel_eq_log2 (fuel : Nat) : ∀ n, n < 2 ^ fuel → ilog2Fuel fuel n = Nat.log2 n := by
  induction fuel with
  | zero =>
    intro n h
    have hn : n = 0 := by simpa using Nat.lt_one_iff.mp (by simpa using h)
    subst hn
    simp [ilog2Fuel, Nat.log2_zero]
  | succ f ih =>
    intro n h
    have hhalf : n / 2 < 2 ^ f := by
      have h2 : n < 2 ^ f * 2 := by
        have : (2:Nat) ^ (f + 1) = 2 ^ f * 2 := Nat.pow_succ ..
        omega
      exact (Nat.div_lt_iff_lt_mul (by norm_num)).mpr h2
    simp only [ilog2Fuel]
    split
    · next h2 =>
      rw [ih (n / 2) hhalf]
      conv_rhs => rw [Nat.log2]
      rw [if_pos h2]
    · next h2 =>
      conv_rhs => rw [Nat.log2]
      rw [if_neg h2]

theorem ilog2Fuel_of_pow_le (fuel : Nat) : ∀ n, 2 ^ fuel ≤ n → ilog2Fuel fuel n = fuel := by
  induction fuel with
  | zero => intro n _; simp [ilog2Fuel]
  | succ f ih =>
    intro n h
    have h2 : 2 ≤ n := by
      have : (2:Nat) ^ 1 ≤ 2 ^ (f + 1) := Nat.pow_le_pow_right (by norm_num) (by omega)
      simpa using le_trans this h
    have hhalf : 2 ^ f ≤ n / 2 := by
      rw [Nat.le_div_iff_mul_le (by norm_num)]
      have : (2:Nat) ^ (f + 1) = 2 ^ f * 2 := Nat.pow_succ ..
      omega
    simp only [ilog2Fuel, if_pos h2]
    rw [ih (n / 2) hhalf]

theorem ilog2_eq_log2 {n : Nat} (h : n < 2 ^ 64) : ilog2 n = Nat.log2 n :=
  ilog2Fuel_eq_log2 64 n h

theorem ilog2_le (n : Nat) : ilog2 n ≤ 64 := ilog2Fuel_le 64 n

theorem log2_eq_of {k p : Nat} (h1 : 2 ^ k ≤ p) (h2 : p < 2 ^ (k + 1)) :
    Nat.log2 p = k := by
  have hp : p ≠ 0 := by
    have := pow_pos (by norm_num : (0:ℕ) < 2) k
    omega
  have ha := (Nat.log2_lt hp).mpr h2
  have hb := (Nat.le_log2 hp).mpr h1
  omega

theorem ilog2_eq_of {k p : Nat} (hk : k ≤ 63) (h1 : 2 ^ k ≤ p) (h2 : p < 2 ^ (k + 1)) :
    ilog2 p = k := by
  have h64 : p < 2 ^ 64 :=
    lt_of_lt_of_le h2 (Nat.pow_le_pow_right (by norm_num) (by omega))
  rw [ilog2_eq_log2 h64]
  exact log2_eq_of h1 h2

theorem pow_le_of_lt_ilog2 {c p : Nat} (h : c < ilog2 p) : 2 ^ (c + 1) ≤ p := by
  by_cases h64 : p < 2 ^ 64
  · have hp : p ≠ 0 := by
      rintro rfl
      rw [show ilog2 0 = 0 from rfl] at h
      omega
    rw [ilog2_eq_log2 h64] at h
    exact (Nat.le_log2 hp).mp h
  · push_neg at h64
    refine le_trans ?_ h64
    exact Nat.pow_le_pow_right (by norm_num) (by have := ilog2_le p; omega)

theorem lt_ilog2_of_pow_le {c p : Nat} (hc : c ≤ 63) (h : 2 ^ (c + 1) ≤ p) :
    c < ilog2 p := by
  by_cases h64 : p < 2 ^ 64
  · have hp : p ≠ 0 := by
      have := pow_pos (by norm_num : (0:ℕ) < 2) (c + 1)
      omega
    rw [ilog2_eq_log2 h64]
    exact (Nat.le_log2 hp).mpr h
  · push_neg at h64
    rw [ilog2, ilog2Fuel_of_pow_le 64 p h64]
    omega

/-! ### Decoding a position in the overflow-free region

For a position `p` at level `k ≤ 31` (that is, `2 ^ k ≤ p < 2 ^ (k + 1)`),
every `u32` reduction in the decoder is the identity except for
`num_rectangles` at `k = 31`, and the decoded quantities take their ideal
values. -/

theorem order_index_eq {k p : Nat} (hk : k ≤ 63) (h1 : 2 ^ k ≤ p) (h2 : p < 2 ^ (k + 1)) :
    Lib.order_index p = k :=
  ilog2_eq_of hk h1 h2

theorem iteration_index_eq {k p : Nat} (hk : k ≤ 31) (h1 : 2 ^ k ≤ p) (h2 : p < 2 ^ (k + 1)) :
    Lib.iteration_index p = p - 2 ^ k := by
  have hoi : Lib.order_index p = k := order_index_eq (by omega) h1 h2
  unfold Lib.iteration_index
  rw [hoi, Nat.mod_eq_of_lt (show k < 32 by omega)]
  have key : ∀ a, a ≤ 2147483648 → a ≤ p → p < 2 * a →
      (p % U32 + (U32 - a)) % U32 = p - a := by
    intro a ha1 ha2 ha3
    simp only [U32]
    omega
  refine key (2 ^ k) ?_ h1 ?_
  · calc (2:Nat) ^ k ≤ 2 ^ 31 := Nat.pow_le_pow_right (by norm_num) hk
      _ = 2147483648 := by norm_num
  · have : (2:Nat) ^ (k + 1) = 2 ^ k * 2 := Nat.pow_succ ..
    omega

theorem num_vertical_eq {k p : Nat} (hoi : Lib.order_index p = k) (hk : k ≤ 62) :
    Lib.num_vertical_rectangles p = 2 ^ ((k + 1) / 2) := by
  unfold Lib.num_vertical_rectangles
  rw [hoi]
  congr 1
  omega

theorem num_horizontal_eq {k p : Nat} (hoi : Lib.order_index p = k) (hk : k ≤ 61) :
    Lib.num_horizontal_rectangles p = 2 ^ (k / 2 + 1) := by
  unfold Lib.num_horizontal_rectangles
  rw [hoi]
  congr 1
  omega

theorem num_rectangles_eq {k p : Nat} (hoi : Lib.order_index p = k) (hk : k ≤ 30) :
    Lib.num_rectangles p = 2 ^ (k + 1) := by
  unfold Lib.num_rectangles
  rw [num_vertical_eq hoi (by omega), num_horizontal_eq hoi (by omega), ← pow_add]
  rw [show (k + 1) / 2 + (k / 2 + 1) = k + 1 by omega]
  have h31 : (2:Nat) ^ (k + 1) ≤ 2 ^ 31 := Nat.pow_le_pow_right (by norm_num) (by omega)
  simp only [U32]
  exact Nat.mod_eq_of_lt (lt_of_le_of_lt h31 (by norm_num))

theorem num_rectangles_31 {p : Nat} (hoi : Lib.order_index p = 31) :
    Lib.num_rectangles p = 0 := by
  unfold Lib.num_rectangles
  rw [num_vertical_eq hoi (by norm_num), num_horizontal_eq hoi (by norm_num)]
  norm_num [U32]

theorem rectangle_index_eq {k p off : Nat} (hii : Lib.iteration_index p = off)
    (hk : k ≤ 31) (hoff : off < 2 ^ k) :
    Lib.rectangle_index p = 2 * off := by
  unfold Lib.rectangle_index
  rw [hii]
  have h31 : (2:Nat) ^ k ≤ 2 ^ 31 := Nat.pow_le_pow_right (by norm_num) hk
  have e3 : (2:Nat) ^ 31 = 2147483648 := by norm_num
  simp only [U32]
  omega

theorem segOf_eq_cleanSeg {k p off : Nat} (hoi : Lib.order_index p = k)
    (hii : Lib.iteration_index p = off) (hk : k ≤ 31) (hoff : off < 2 ^ k) :
    Lib.segOf p = Lib.cleanSeg k off := by
  have hnv := num_vertical_eq hoi (by omega)
  have hnh := num_horizontal_eq hoi (by omega)
  have hri := rectangle_index_eq hii hk hoff
  have hone : (2 * off + 1) % U32 = 2 * off + 1 := by
    have h31 : (2:Nat) ^ k ≤ 2 ^ 31 := Nat.pow_le_pow_right (by norm_num) hk
    have e3 : (2:Nat) ^ 31 = 2147483648 := by norm_num
    simp only [U32]
    omega
  simp only [Lib.segOf, Lib.num_x_start_v, Lib.num_x_end_v, Lib.num_y_start_h,
    Lib.num_y_end_h, Lib.num_y_start_v, Lib.num_y_end_v, Lib.num_x_start_h,
    Lib.num_x_end_h]
  rw [hoi, hnv, hnh, hri, hone]
  simp only [Lib.cleanSeg]

theorem decode_eq_seg {o k off : Nat} (hor : k ≤ o % U32) (hk : k ≤ 30) (hoff : off < 2 ^ k) :
    Lib.decode o (2 ^ k + off) = NextRes.seg (Lib.cleanSeg k off) := by
  have hpos : 0 < 2 ^ k := pow_pos (by norm_num) k
  have h1 : 2 ^ k ≤ 2 ^ k + off := Nat.le_add_right _ _
  have h2 : 2 ^ k + off < 2 ^ (k + 1) := by
    have : (2:Nat) ^ (k + 1) = 2 ^ k * 2 := Nat.pow_succ ..
    omega
  have hoi : Lib.order_index (2 ^ k + off) = k := order_index_eq (by omega) h1 h2
  have hii : Lib.iteration_index (2 ^ k + off) = off := by
    rw [iteration_index_eq (by omega) h1 h2]
    omega
  have hnr := num_rectangles_eq hoi hk
  have hassert : Lib.num_rectangles (2 ^ k + off) ≥ Lib.iteration_index (2 ^ k + off) * 2 % U32 := by
    rw [hnr, hii]
    have hb : off * 2 < 2 ^ (k + 1) := by
      have : (2:Nat) ^ (k + 1) = 2 ^ k * 2 := Nat.pow_succ ..
      omega
    have h31 : (2:Nat) ^ (k + 1) ≤ 2 ^ 31 := Nat.pow_le_pow_right (by norm_num) (by omega)
    have e3 : (2:Nat) ^ 31 = 2147483648 := by norm_num
    simp only [U32]
    omega
  unfold Lib.decode
  rw [if_neg (by omega : ¬ (2 ^ k + off = 0)), hoi, if_neg (by omega : ¬ (k > o % U32)),
    if_pos hassert]
  exact congrArg _ (segOf_eq_cleanSeg hoi hii (by omega) hoff)

theorem decode_pow31 {o : Nat} (h : 31 ≤ o % U32) :
    Lib.decode o (2 ^ 31) = NextRes.seg (Lib.cleanSeg 31 0) := by
  have hoi : Lib.order_index (2 ^ 31) = 31 :=
    order_index_eq (by norm_num) (le_refl _) (by norm_num)
  have hii : Lib.iteration_index (2 ^ 31) = 0 := by
    rw [iteration_index_eq (le_refl 31) (le_refl _) (by norm_num)]
    omega
  have hnr := num_rectangles_31 hoi
  have hassert : Lib.num_rectangles (2 ^ 31) ≥ Lib.iteration_index (2 ^ 31) * 2 % U32 := by
    rw [hnr, hii]
    norm_num
  unfold Lib.decode
  rw [if_neg (by norm_num : ¬ ((2:Nat) ^ 31 = 0)), hoi, if_neg (by omega : ¬ (31 > o % U32)),
    if_pos hassert]
  exact congrArg _ (segOf_eq_cleanSeg hoi hii (by norm_num) (pow_pos (by norm_num) 31))

theorem decode_fail_31 {o p : Nat} (hor : 31 ≤ o % U32) (h1 : 2 ^ 31 < p) (h2 : p < 2 ^ 32) :
    Lib.decode o p = NextRes.fail := by
  have hps : 2 ^ 31 ≤ p := by omega
  have hoi : Lib.order_index p = 31 := order_index_eq (by norm_num) hps (by norm_num; omega)
  have hii : Lib.iteration_index p = p - 2 ^ 31 :=
    iteration_index_eq (le_refl 31) hps (by norm_num; omega)
  have hnr := num_rectangles_31 hoi
  have hassert : ¬ (Lib.num_rectangles p ≥ Lib.iteration_index p * 2 % U32) := by
    rw [hnr, hii]
    have e1 : (2:Nat) ^ 31 = 2147483648 := by norm_num
    have e2 : (2:Nat) ^ 32 = 4294967296 := by norm_num
    simp only [U32]
    omega
  unfold Lib.decode
  rw [if_neg (by omega : ¬ (p = 0)), hoi, if_neg (by omega : ¬ (31 > o % U32)),
    if_neg hassert]

theorem decode_zero (o : Nat) : Lib.decode o 0 = NextRes.fail := rfl

theorem decode_done_iff {o p : Nat} :
    Lib.decode o p = NextRes.done ↔ p ≠ 0 ∧ o % U32 < Lib.order_index p := by
  unfold Lib.decode
  split
  · next h => simp [h]
  · next h =>
    split
    · next h2 => simp [h, h2]
    · next h2 =>
      split
      · simp [h, h2]
      · simp [h, h2]

theorem isSeg_le_order {o p : Nat} (h : (Lib.decode o p).isSeg = true) :
    p ≠ 0 ∧ Lib.order_index p ≤ o % U32 := by
  unfold Lib.decode at h
  by_cases h0 : p = 0
  · rw [if_pos h0] at h
    simp [NextRes.isSeg] at h
  · rw [if_neg h0] at h
    refine ⟨h0, ?_⟩
    by_contra hc
    push_neg at hc
    rw [if_pos hc] at h
    simp [NextRes.isSeg] at h

theorem yields_cases {o p : Nat} (hseg : (Lib.decode o p).isSeg = true)
    (hrun : ∀ q, q < p → 1 ≤ q → Lib.decode o q ≠ NextRes.fail) :
    ∃ k off, off < 2 ^ k ∧ p = 2 ^ k + off ∧ (k ≤ 30 ∨ (k = 31 ∧ off = 0)) ∧
      Lib.decode o p = NextRes.seg (Lib.cleanSeg k off) := by
  obtain ⟨hp0, hor⟩ := isSeg_le_order hseg
  by_cases h64 : p < 2 ^ 64
  case neg =>
    exfalso
    push_neg at h64
    have hoi : Lib.order_index p = 64 := by
      rw [Lib.order_index, ilog2, ilog2Fuel_of_pow_le 64 p h64]
    have h31 : 31 ≤ o % U32 := by omega
    refine hrun (2 ^ 31 + 1) ?_ (by norm_num) (decode_fail_31 h31 (by norm_num) (by norm_num))
    calc (2:Nat) ^ 31 + 1 < 2 ^ 64 := by norm_num
      _ ≤ p := h64
  case pos =>
    have hlog : Lib.order_index p = Nat.log2 p := ilog2_eq_log2 h64
    have hps : 2 ^ Lib.order_index p ≤ p := by rw [hlog]; exact Nat.log2_self_le hp0
    have hpl : p < 2 ^ (Lib.order_index p + 1) := by rw [hlog]; exact Nat.lt_log2_self
    by_cases h30 : Lib.order_index p ≤ 30
    · refine ⟨Lib.order_index p, p - 2 ^ Lib.order_index p, by omega, by omega, Or.inl h30, ?_⟩
      have hd := @decode_eq_seg o (Lib.order_index p)
        (p - 2 ^ Lib.order_index p) hor h30 (by
          have : (2:Nat) ^ (Lib.order_index p + 1) = 2 ^ Lib.order_index p * 2 := Nat.pow_succ ..
          omega)
      rwa [show 2 ^ Lib.order_index p + (p - 2 ^ Lib.order_index p) = p by omega] at hd
    · by_cases h31 : Lib.order_index p = 31
      · by_cases hp : p = 2 ^ 31
        · refine ⟨31, 0, pow_pos (by norm_num) 31, by omega, Or.inr ⟨rfl, rfl⟩, ?_⟩
          rw [hp]
          exact decode_pow31 (by omega)
        · exfalso
          have hfail : Lib.decode o p = NextRes.fail := by
            refine decode_fail_31 (by omega) ?_ ?_
            · rw [h31] at hps; omega
            · rw [h31] at hpl; norm_num at hpl; omega
          rw [hfail] at hseg
          simp [NextRes.isSeg] at hseg
      · exfalso
        have h32 : 32 ≤ Lib.order_index p := by omega
        have hp32 : 2 ^ 32 ≤ p :=
          le_trans (Nat.pow_le_pow_right (by norm_num) h32) hps
        refine hrun (2 ^ 31 + 1) ?_ (by norm_num) (decode_fail_31 (by omega) (by norm_num) (by norm_num))
        calc (2:Nat) ^ 31 + 1 < 2 ^ 32 := by norm_num
          _ ≤ p := hp32

/-! ### Geometry of the overflow-free segment -/

theorem coordQ_nonneg (n N : Nat) : 0 ≤ ((n : ℚ) + 1 / 2) / (N : ℚ) := by
  apply div_nonneg
  · positivity
  · positivity

theorem coordQ_le_one {n N : Nat} (h : n < N) : ((n : ℚ) + 1 / 2) / (N : ℚ) ≤ 1 := by
  have hN : (0:ℚ) < N := by
    have : 0 < N := by omega
    exact_mod_cast this
  rw [div_le_one hN]
  have h1 : (n : ℚ) + 1 ≤ N := by exact_mod_cast h
  linarith

theorem SCALE_HEIGHT_nonneg : 0 ≤ Lib.SCALE_HEIGHT := by norm_num [Lib.SCALE_HEIGHT]

theorem SCALE_HEIGHT_sq : 2 * Lib.SCALE_HEIGHT ^ 2 ≤ 1 := by norm_num [Lib.SCALE_HEIGHT]

theorem cleanSeg_cases (k off : Nat) (hoff : off < 2 ^ k) :
    ∃ xs ys xe ye : Nat,
      Lib.cleanSeg k off =
        ((((xs : ℚ) + 1 / 2) / ((2 ^ (k / 2 + 1) : ℕ) : ℚ),
          ((ys : ℚ) + 1 / 2) / ((2 ^ ((k + 1) / 2) : ℕ) : ℚ) * Lib.SCALE_HEIGHT),
         (((xe : ℚ) + 1 / 2) / ((2 ^ (k / 2 + 1) : ℕ) : ℚ),
          ((ye : ℚ) + 1 / 2) / ((2 ^ ((k + 1) / 2) : ℕ) : ℚ) * Lib.SCALE_HEIGHT)) ∧
      xs < 2 ^ (k / 2 + 1) ∧ xe < 2 ^ (k / 2 + 1) ∧
      ys < 2 ^ ((k + 1) / 2) ∧ ye < 2 ^ ((k + 1) / 2) ∧
      (k % 2 = 1 → xe = xs ∧ ye = ys + 1) ∧
      (k % 2 = 0 → ye = ys ∧ xe = xs + 1) := by
  have hnv : 0 < 2 ^ ((k + 1) / 2) := pow_pos (by norm_num) _
  have hnh : 0 < 2 ^ (k / 2 + 1) := pow_pos (by norm_num) _
  have hprod : (2:Nat) ^ ((k + 1) / 2) * 2 ^ (k / 2 + 1) = 2 ^ (k + 1) := by
    rw [← pow_add]
    congr 1
    omega
  have hprod' : (2:Nat) ^ (k / 2 + 1) * 2 ^ ((k + 1) / 2) = 2 ^ (k + 1) := by
    rw [Nat.mul_comm]
    exact hprod
  have hri : 2 * off + 1 < 2 ^ (k + 1) := by
    have : (2:Nat) ^ (k + 1) = 2 ^ k * 2 := Nat.pow_succ ..
    omega
  by_cases hk : k % 2 = 1
  · -- odd level: column-major decomposition by the vertical count
    have hnv2 : (2:Nat) ∣ 2 ^ ((k + 1) / 2) := dvd_pow_self 2 (by omega)
    have hys_lt : 2 * off % 2 ^ ((k + 1) / 2) < 2 ^ ((k + 1) / 2) := Nat.mod_lt _ hnv
    have hys_even : (2:Nat) ∣ 2 * off % 2 ^ ((k + 1) / 2) := by
      have h1 : 2 * off % 2 ^ ((k + 1) / 2) % 2 = 2 * off % 2 :=
        Nat.mod_mod_of_dvd _ hnv2
      omega
    have hys1 : 2 * off % 2 ^ ((k + 1) / 2) + 1 < 2 ^ ((k + 1) / 2) := by omega
    have hye : (2 * off + 1) % 2 ^ ((k + 1) / 2) = 2 * off % 2 ^ ((k + 1) / 2) + 1 := by
      conv_lhs => rw [Nat.add_mod]
      rw [Nat.mod_eq_of_lt (show 1 < 2 ^ ((k + 1) / 2) by omega),
        Nat.mod_eq_of_lt hys1]
    have hmodle : 2 * off % 2 ^ ((k + 1) / 2) ≤ 2 * off := Nat.mod_le _ _
    refine ⟨(2 * off - 2 * off % 2 ^ ((k + 1) / 2)) / 2 ^ ((k + 1) / 2),
        2 * off % 2 ^ ((k + 1) / 2),
        (2 * off + 1 - (2 * off + 1) % 2 ^ ((k + 1) / 2)) / 2 ^ ((k + 1) / 2),
        (2 * off + 1) % 2 ^ ((k + 1) / 2), ?_, ?_, ?_, hys_lt, ?_, ?_, ?_⟩
    · simp only [Lib.cleanSeg, if_pos hk]
    · rw [Nat.div_lt_iff_lt_mul hnv, hprod']
      omega
    · rw [Nat.div_lt_iff_lt_mul hnv, hprod']
      omega
    · rw [hye]
      exact hys1
    · intro _
      refine ⟨?_, hye⟩
      rw [hye]
      congr 1
      omega
    · intro h0
      omega
  · -- even level: row-major decomposition by the horizontal count
    have hk0 : k % 2 = 0 := by omega
    have hnh2 : (2:Nat) ∣ 2 ^ (k / 2 + 1) := dvd_pow_self 2 (by omega)
    have hxs_lt : 2 * off % 2 ^ (k / 2 + 1) < 2 ^ (k / 2 + 1) := Nat.mod_lt _ hnh
    have hxs_even : (2:Nat) ∣ 2 * off % 2 ^ (k / 2 + 1) := by
      have h1 : 2 * off % 2 ^ (k / 2 + 1) % 2 = 2 * off % 2 :=
        Nat.mod_mod_of_dvd _ hnh2
      omega
    have hxs1 : 2 * off % 2 ^ (k / 2 + 1) + 1 < 2 ^ (k / 2 + 1) := by omega
    have hxe : (2 * off + 1) % 2 ^ (k / 2 + 1) = 2 * off % 2 ^ (k / 2 + 1) + 1 := by
      conv_lhs => rw [Nat.add_mod]
      rw [Nat.mod_eq_of_lt (show 1 < 2 ^ (k / 2 + 1) by omega),
        Nat.mod_eq_of_lt hxs1]
    have hmodle : 2 * off % 2 ^ (k / 2 + 1) ≤ 2 * off := Nat.mod_le _ _
    refine ⟨2 * off % 2 ^ (k / 2 + 1),
        (2 * off - 2 * off % 2 ^ (k / 2 + 1)) / 2 ^ (k / 2 + 1),
        (2 * off + 1) % 2 ^ (k / 2 + 1),
        (2 * off + 1 - (2 * off + 1) % 2 ^ (k / 2 + 1)) / 2 ^ (k / 2 + 1),
        ?_, hxs_lt, ?_, ?_, ?_, ?_, ?_⟩
    · simp only [Lib.cleanSeg, if_neg hk]
    · rw [hxe]
      exact hxs1
    · rw [Nat.div_lt_iff_lt_mul hnh, hprod]
      omega
    · rw [Nat.div_lt_iff_lt_mul hnh, hprod]
      omega
    · intro h1
      omega
    · intro _
      refine ⟨?_, hxe⟩
      rw [hxe]
      congr 1
      omega

/-! ### Claim theorems -/

/-- C8: the two copies of the decoding algorithm, `HTreeIterator::next` in
`src/src/lib.rs` and in `src/src/htree.rs`, implement the same function:
for every order and every iterator state both produce the same result
(identical `Option` of segment, modelled by `NextRes`) and the same
successor state (same stored order and same counter). -/
theorem claim_C8 (o i : Nat) :
    Lib.decode o i = Htree.decode o i ∧
    (Lib.HTreeIterator.next { h_tree := Lib.HTree.new o, index := i }).1 =
      (Htree.HTreeIterator.next { h_tree := Htree.HTree.new o, index := i }).1 ∧
    (Lib.HTreeIterator.next { h_tree := Lib.HTree.new o, index := i }).2.index =
      (Htree.HTreeIterator.next { h_tree := Htree.HTree.new o, index := i }).2.index ∧
    (Lib.HTreeIterator.next { h_tree := Lib.HTree.new o, index := i }).2.h_tree.order =
      (Htree.HTreeIterator.next { h_tree := Htree.HTree.new o, index := i }).2.h_tree.order :=
  ⟨rfl, rfl, rfl, rfl⟩

/-- C10: the iterator is fused: once a call returns `None` (here: once the
decode of some position is `done`), every later position also decodes to
`done`, because the position only increases and floor-log2 is monotone. -/
theorem claim_C10 (o p q : Nat) (h : Lib.decode o p = NextRes.done) (hpq : p ≤ q) :
    Lib.decode o q = NextRes.done := by
  obtain ⟨hp0, hlt⟩ := decode_done_iff.mp h
  have h64 : Lib.order_index p ≤ 64 := ilog2_le p
  have hc : o % U32 ≤ 63 := by omega
  have hp2 : 2 ^ (o % U32 + 1) ≤ p := pow_le_of_lt_ilog2 hlt
  have hq2 : 2 ^ (o % U32 + 1) ≤ q := le_trans hp2 hpq
  have hq0 : q ≠ 0 := by
    have := pow_pos (by norm_num : (0:ℕ) < 2) (o % U32 + 1)
    omega
  exact decode_done_iff.mpr ⟨hq0, lt_ilog2_of_pow_le hc hq2⟩

/-- C10 (witness): at order 0 the decode of position 2 is `done`, hence so
is the decode of position 3. -/
theorem claim_C10_witness : Lib.decode 0 3 = NextRes.done :=
  claim_C10 0 2 3 (by decide) (by decide)

/-- C7: construction never validates the order (the stored order is the
argument, for every argument), and for every order in [31, 2 ^ 32) the
decoder reaches level 31, where the grid cell count 2 ^ 16 * 2 ^ 16 = 2 ^ 32
wraps to 0 modulo 2 ^ 32: position 2 ^ 31 still silently decodes to a
segment and position 2 ^ 31 + 1 trips the assertion guard, with no
order-too-large error ever reported. -/
theorem claim_C7 (o : Nat) :
    (Lib.HTree.new o).order = o ∧
    (31 ≤ o → o < U32 →
      Lib.num_vertical_rectangles (2 ^ 31) = 2 ^ 16 ∧
      Lib.num_horizontal_rectangles (2 ^ 31) = 2 ^ 16 ∧
      Lib.num_rectangles (2 ^ 31) = 0 ∧
      (Lib.decode o (2 ^ 31)).isSeg = true ∧
      Lib.decode o (2 ^ 31 + 1) = NextRes.fail) := by
  refine ⟨rfl, fun h31 hlt => ?_⟩
  have hmod : o % U32 = o := Nat.mod_eq_of_lt hlt
  have hor : 31 ≤ o % U32 := by omega
  have hoi : Lib.order_index (2 ^ 31) = 31 :=
    order_index_eq (by norm_num) (le_refl _) (by norm_num)
  refine ⟨num_vertical_eq hoi (by norm_num), num_horizontal_eq hoi (by norm_num),
    num_rectangles_31 hoi, ?_, decode_fail_31 hor (by norm_num) (by norm_num)⟩
  rw [decode_pow31 hor]
  rfl

/-- C7 (witness): the instantiation at order 31. -/
theorem claim_C7_witness :
    (Lib.HTree.new 31).order = 31 ∧
    (Lib.num_vertical_rectangles (2 ^ 31) = 2 ^ 16 ∧
     Lib.num_horizontal_rectangles (2 ^ 31) = 2 ^ 16 ∧
     Lib.num_rectangles (2 ^ 31) = 0 ∧
     (Lib.decode 31 (2 ^ 31)).isSeg = true ∧
     Lib.decode 31 (2 ^ 31 + 1) = NextRes.fail) :=
  ⟨(claim_C7 31).1, (claim_C7 31).2 (by decide) (by decide)⟩

/-- C6 (counterexample): at order 31 the level k = 31 and offset 1 satisfy
the claimed range conditions (k ≤ order and offset < 2 ^ k), yet decoding
the corresponding position 2 ^ 31 + 1 takes the abort branch of the
assertion guard, so that branch is reachable. -/
theorem claim_C6_counterexample :
    31 ≤ 31 % U32 ∧ 1 < 2 ^ 31 ∧ Lib.decode 31 (2 ^ 31 + 1) = NextRes.fail :=
  ⟨by decide, by norm_num, decode_fail_31 (by decide) (by norm_num) (by norm_num)⟩

/-- C6 (amended): for every level k ≤ min(order, 30) and every offset in
[0, 2 ^ k − 1] the assertion `num_rectangles ≥ 2 * iteration_index` holds,
so the abort branch is not taken at the corresponding position. -/
theorem claim_C6_amended (o k off : Nat) (hk : k ≤ o % U32) (h30 : k ≤ 30)
    (hoff : off < 2 ^ k) :
    Lib.decode o (2 ^ k + off) ≠ NextRes.fail := by
  rw [decode_eq_seg hk h30 hoff]
  simp

/-- C6 (witness): order 1, level 1, offset 1 (position 3). -/
theorem claim_C6_witness : Lib.decode 1 (2 ^ 1 + 1) ≠ NextRes.fail :=
  claim_C6_amended 1 1 1 (by decide) (by decide) (by decide)

/-- C1 (counterexample): at order 31 the count law fails: position
2 ^ 31 + 1 lies in the claimed segment range [1, 2 ^ 32 − 1], but its
decode aborts in the assertion guard instead of yielding a segment. -/
theorem claim_C1_counterexample :
    ¬ (∀ p, 1 ≤ p → p ≤ 2 ^ (31 + 1) - 1 → (Lib.decode 31 p).isSeg = true) := by
  intro h
  have h1 := h (2 ^ 31 + 1) (by norm_num) (by norm_num)
  rw [decode_fail_31 (by decide) (by norm_num) (by norm_num)] at h1
  simp [NextRes.isSeg] at h1

/-- C1 (amended): for every order o ≤ 30 the iteration of a fresh
`HTreeIterator` yields a segment at each of the positions 1 to
2 ^ (o + 1) − 1 (exactly 2 ^ (o + 1) − 1 segments) and decodes every
position from 2 ^ (o + 1) on, in particular the position right after the
last segment, to `done` (end of sequence); for order 0 the second call
(position 2) is already `done`.  Orders above 30 are excluded: there the
32-bit cell count overflows and the assertion guard aborts the iteration
(see the counterexample). -/
theorem claim_C1_amended (o : Nat) (h30 : o ≤ 30) :
    (∀ p, 1 ≤ p → p ≤ 2 ^ (o + 1) - 1 → (Lib.decode o p).isSeg = true) ∧
    (∀ p, 2 ^ (o + 1) ≤ p → Lib.decode o p = NextRes.done) := by
  have hmod : o % U32 = o := Nat.mod_eq_of_lt (by simp only [U32]; omega)
  constructor
  · intro p hp1 hp2
    have hpow : 0 < 2 ^ (o + 1) := pow_pos (by norm_num) _
    have hplt : p < 2 ^ (o + 1) := by omega
    have hp0 : p ≠ 0 := by omega
    have hps : 2 ^ Nat.log2 p ≤ p := Nat.log2_self_le hp0
    have hpl : p < 2 ^ (Nat.log2 p + 1) := Nat.lt_log2_self
    have hko : Nat.log2 p ≤ o := by
      have := (Nat.log2_lt hp0).mpr hplt
      omega
    have hd := @decode_eq_seg o (Nat.log2 p) (p - 2 ^ Nat.log2 p)
      (by omega) (by omega) (by
        have : (2:Nat) ^ (Nat.log2 p + 1) = 2 ^ Nat.log2 p * 2 := Nat.pow_succ ..
        omega)
    rw [show 2 ^ Nat.log2 p + (p - 2 ^ Nat.log2 p) = p by omega] at hd
    rw [hd]
    rfl
  · intro p hp
    have hp0 : p ≠ 0 := by
      have := pow_pos (by norm_num : (0:ℕ) < 2) (o + 1)
      omega
    refine decode_done_iff.mpr ⟨hp0, ?_⟩
    rw [hmod]
    exact lt_ilog2_of_pow_le (by omega) hp

/-- C1 (witness): at order 0, position 1 yields the single segment and
position 2 (the second call) signals end of sequence. -/
theorem claim_C1_witness :
    (Lib.decode 0 1).isSeg = true ∧ Lib.decode 0 2 = NextRes.done :=
  ⟨(claim_C1_amended 0 (by decide)).1 1 (by decide) (by decide),
   (claim_C1_amended 0 (by decide)).2 2 (by decide)⟩

/-- C2 (counterexample): at order 31 the level-size law fails at level 31:
position 2 ^ 31 + 1 lies in the claimed block [2 ^ 31, 2 ^ 32 − 1] of
level-31 positions, but it does not decode to a segment (the assertion
guard aborts), so level 31 does not contribute 2 ^ 31 segments. -/
theorem claim_C2_counterexample :
    ¬ (∀ p, 2 ^ 31 ≤ p → p ≤ 2 ^ 32 - 1 → (Lib.decode 31 p).isSeg = true) := by
  intro h
  have h1 := h (2 ^ 31 + 1) (by norm_num) (by norm_num)
  rw [decode_fail_31 (by decide) (by norm_num) (by norm_num)] at h1
  simp [NextRes.isSeg] at h1

/-- C2 (amended): part one of the claim holds as stated: for every position
the iterator actually decodes (the call does not return `done`, the run was
not aborted earlier, and the position is at least 1 because the counter is
incremented before decoding), the computed level is floor-log2 of the
position and the computed offset is position − 2 ^ level, lying in
[0, 2 ^ level − 1].  Part two (the level-size law) holds restricted to
levels k ≤ min(order, 30): each of the 2 ^ k positions in
[2 ^ k, 2 ^ (k + 1) − 1] decodes to a segment of level k; at level 31 the
law fails (see the counterexample). -/
theorem claim_C2_amended (o : Nat) :
    (∀ p, 1 ≤ p → Lib.decode o p ≠ NextRes.done →
      (∀ q, q < p → 1 ≤ q → Lib.decode o q ≠ NextRes.fail) →
      Lib.order_index p = Nat.log2 p ∧
      Lib.iteration_index p = p - 2 ^ Lib.order_index p ∧
      Lib.iteration_index p < 2 ^ Lib.order_index p) ∧
    (∀ k, k ≤ o % U32 → k ≤ 30 → ∀ p, 2 ^ k ≤ p → p < 2 ^ (k + 1) →
      (Lib.decode o p).isSeg = true ∧ Lib.order_index p = k ∧
      Lib.iteration_index p = p - 2 ^ k) := by
  constructor
  · intro p hp1 hnd hrun
    have hor : ¬ (o % U32 < Lib.order_index p) := by
      intro hc
      exact hnd (decode_done_iff.mpr ⟨by omega, hc⟩)
    push_neg at hor
    have hk31 : Lib.order_index p ≤ 31 := by
      by_contra hgt
      push_neg at hgt
      have h32 : (2:Nat) ^ 32 ≤ p := pow_le_of_lt_ilog2 (c := 31) (by exact hgt)
      refine hrun (2 ^ 31 + 1) (by norm_num; omega) (by norm_num)
        (decode_fail_31 (by omega) (by norm_num) (by norm_num))
    have hp64 : p < 2 ^ 64 := by
      by_contra hc
      push_neg at hc
      have h64 : Lib.order_index p = 64 := by
        show ilog2 p = 64
        rw [ilog2]
        exact ilog2Fuel_of_pow_le 64 p hc
      omega
    have hlogeq : Lib.order_index p = Nat.log2 p := ilog2_eq_log2 hp64
    have hps : 2 ^ Lib.order_index p ≤ p := by
      rw [hlogeq]
      exact Nat.log2_self_le (by omega)
    have hpl : p < 2 ^ (Lib.order_index p + 1) := by
      rw [hlogeq]
      exact Nat.lt_log2_self
    have hii := iteration_index_eq (k := Lib.order_index p) hk31 hps hpl
    have hsucc : (2:Nat) ^ (Lib.order_index p + 1) = 2 ^ Lib.order_index p * 2 :=
      Nat.pow_succ ..
    exact ⟨hlogeq, hii, by omega⟩
  · intro k hk h30 p hps hpl
    have hoi : Lib.order_index p = k := order_index_eq (by omega) hps hpl
    have hii : Lib.iteration_index p = p - 2 ^ k := iteration_index_eq (by omega) hps hpl
    have hd := @decode_eq_seg o k (p - 2 ^ k) hk h30 (by
      have : (2:Nat) ^ (k + 1) = 2 ^ k * 2 := Nat.pow_succ ..
      omega)
    rw [show 2 ^ k + (p - 2 ^ k) = p by omega] at hd
    exact ⟨by rw [hd]; rfl, hoi, hii⟩

/-- C2 (witness): at order 1, part one at position 2 and part two at level
1, position 3. -/
theorem claim_C2_witness :
    (Lib.order_index 2 = Nat.log2 2 ∧
     Lib.iteration_index 2 = 2 - 2 ^ Lib.order_index 2 ∧
     Lib.iteration_index 2 < 2 ^ Lib.order_index 2) ∧
    ((Lib.decode 1 3).isSeg = true ∧ Lib.order_index 3 = 1 ∧
     Lib.iteration_index 3 = 3 - 2 ^ 1) :=
  ⟨(claim_C2_amended 1).1 2 (by decide) (by decide) (by decide),
   (claim_C2_amended 1).2 1 (by decide) (by decide) 3 (by decide) (by decide)⟩

/-- Uniqueness of the level/offset decomposition of a position. -/
theorem pow_decomp_unique {k off k2 off2 : Nat} (h1 : off < 2 ^ k) (h2 : off2 < 2 ^ k2)
    (he : 2 ^ k + off = 2 ^ k2 + off2) : k = k2 ∧ off = off2 := by
  have e1 : Nat.log2 (2 ^ k + off) = k :=
    log2_eq_of (Nat.le_add_right _ _) (by
      have : (2:Nat) ^ (k + 1) = 2 ^ k * 2 := Nat.pow_succ ..
      omega)
  have e2 : Nat.log2 (2 ^ k2 + off2) = k2 :=
    log2_eq_of (Nat.le_add_right _ _) (by
      have : (2:Nat) ^ (k2 + 1) = 2 ^ k2 * 2 := Nat.pow_succ ..
      omega)
  rw [he] at e1
  have hk : k = k2 := by omega
  subst hk
  omega

/-- C3: whenever the iterator actually decodes the position at level `k`
with in-range offset `off` to a segment (the run reached it unaborted),
the grid dimensions are `V = 2 ^ ((k + 1) / 2)` vertical partitions and
`H = 2 ^ (k / 2 + 1)` horizontal partitions, and the produced segment
decomposes `cell_index = 2 * off` and `cell_index + 1` column-major on odd
levels (y is the remainder by V, x the quotient) and row-major on even
levels (x is the remainder by H, y the quotient), unconditionally by level
parity. -/
theorem claim_C3 (o k off : Nat) (hoff : off < 2 ^ k)
    (hseg : (Lib.decode o (2 ^ k + off)).isSeg = true)
    (hrun : ∀ q, q < 2 ^ k + off → 1 ≤ q → Lib.decode o q ≠ NextRes.fail) :
    Lib.decode o (2 ^ k + off) = NextRes.seg (Lib.cleanSeg k off) ∧
    Lib.num_vertical_rectangles (2 ^ k + off) = 2 ^ ((k + 1) / 2) ∧
    Lib.num_horizontal_rectangles (2 ^ k + off) = 2 ^ (k / 2 + 1) ∧
    (k % 2 = 1 → Lib.cleanSeg k off =
      ((((((2 * off - 2 * off % 2 ^ ((k + 1) / 2)) / 2 ^ ((k + 1) / 2) : ℕ) : ℚ) + 1 / 2) /
          ((2 ^ (k / 2 + 1) : ℕ) : ℚ),
        (((2 * off % 2 ^ ((k + 1) / 2) : ℕ) : ℚ) + 1 / 2) / ((2 ^ ((k + 1) / 2) : ℕ) : ℚ) *
          Lib.SCALE_HEIGHT),
       (((((2 * off + 1 - (2 * off + 1) % 2 ^ ((k + 1) / 2)) / 2 ^ ((k + 1) / 2) : ℕ) : ℚ) + 1 / 2) /
          ((2 ^ (k / 2 + 1) : ℕ) : ℚ),
        ((((2 * off + 1) % 2 ^ ((k + 1) / 2) : ℕ) : ℚ) + 1 / 2) / ((2 ^ ((k + 1) / 2) : ℕ) : ℚ) *
          Lib.SCALE_HEIGHT))) ∧
    (k % 2 = 0 → Lib.cleanSeg k off =
      (((((2 * off % 2 ^ (k / 2 + 1) : ℕ) : ℚ) + 1 / 2) / ((2 ^ (k / 2 + 1) : ℕ) : ℚ),
        ((((2 * off - 2 * off % 2 ^ (k / 2 + 1)) / 2 ^ (k / 2 + 1) : ℕ) : ℚ) + 1 / 2) /
          ((2 ^ ((k + 1) / 2) : ℕ) : ℚ) * Lib.SCALE_HEIGHT),
       ((((2 * off + 1) % 2 ^ (k / 2 + 1) : ℕ) : ℚ) + 1 / 2) / ((2 ^ (k / 2 + 1) : ℕ) : ℚ),
        ((((2 * off + 1 - (2 * off + 1) % 2 ^ (k / 2 + 1)) / 2 ^ (k / 2 + 1) : ℕ) : ℚ) + 1 / 2) /
          ((2 ^ ((k + 1) / 2) : ℕ) : ℚ) * Lib.SCALE_HEIGHT)) := by
  obtain ⟨k2, off2, hoff2, hp, hk31d, hd⟩ := yields_cases hseg hrun
  obtain ⟨hkk, hoo⟩ := pow_decomp_unique hoff hoff2 hp
  rw [← hkk, ← hoo] at hd
  have hk31 : k ≤ 31 := by
    rcases hk31d with h | h
    · omega
    · omega
  have hps : 2 ^ k ≤ 2 ^ k + off := Nat.le_add_right _ _
  have hpl : 2 ^ k + off < 2 ^ (k + 1) := by
    have : (2:Nat) ^ (k + 1) = 2 ^ k * 2 := Nat.pow_succ ..
    omega
  have hoi : Lib.order_index (2 ^ k + off) = k := order_index_eq (by omega) hps hpl
  refine ⟨hd, num_vertical_eq hoi (by omega), num_horizontal_eq hoi (by omega), ?_, ?_⟩
  · intro hpar
    simp only [Lib.cleanSeg, if_pos hpar]
  · intro hpar
    have hne : ¬ (k % 2 = 1) := by omega
    simp only [Lib.cleanSeg, if_neg hne]

/-- C3 (witness): order 1, level 1, offset 0 (position 2). -/
theorem claim_C3_witness :
    Lib.decode 1 (2 ^ 1 + 0) = NextRes.seg (Lib.cleanSeg 1 0) :=
  (claim_C3 1 1 0 (by decide) (by decide) (by decide)).1

/-- C5: every segment the iterator actually produces (the run reached the
position unaborted) lies in the bounding box: both endpoints satisfy
`0 ≤ x ≤ 1` and `0 ≤ y ≤ SCALE_HEIGHT`, and the scale constant itself
satisfies `2 * SCALE_HEIGHT ^ 2 ≤ 1`, placing it at most `1 / sqrt 2`. -/
theorem claim_C5 (o p : Nat) (hseg : (Lib.decode o p).isSeg = true)
    (hrun : ∀ q, q < p → 1 ≤ q → Lib.decode o q ≠ NextRes.fail) :
    inBox (Lib.decode o p) ∧ 0 ≤ Lib.SCALE_HEIGHT ∧ 2 * Lib.SCALE_HEIGHT ^ 2 ≤ 1 := by
  refine ⟨?_, SCALE_HEIGHT_nonneg, SCALE_HEIGHT_sq⟩
  obtain ⟨k, off, hoff, hp, _, hd⟩ := yields_cases hseg hrun
  rw [hd]
  obtain ⟨xs, ys, xe, ye, heq, hxs, hxe, hys, hye, _, _⟩ := cleanSeg_cases k off hoff
  rw [heq]
  simp only [inBox]
  have hyb : ∀ (n N : Nat), n < N →
      0 ≤ ((n : ℚ) + 1 / 2) / ((N : ℕ) : ℚ) * Lib.SCALE_HEIGHT ∧
      ((n : ℚ) + 1 / 2) / ((N : ℕ) : ℚ) * Lib.SCALE_HEIGHT ≤ Lib.SCALE_HEIGHT := by
    intro n N h
    constructor
    · exact mul_nonneg (coordQ_nonneg n N) SCALE_HEIGHT_nonneg
    · calc ((n : ℚ) + 1 / 2) / (N : ℚ) * Lib.SCALE_HEIGHT
          ≤ 1 * Lib.SCALE_HEIGHT :=
            mul_le_mul_of_nonneg_right (coordQ_le_one h) SCALE_HEIGHT_nonneg
        _ = Lib.SCALE_HEIGHT := one_mul _
  exact ⟨coordQ_nonneg xs _, coordQ_le_one hxs, (hyb ys _ hys).1, (hyb ys _ hys).2,
    coordQ_nonneg xe _, coordQ_le_one hxe, (hyb ye _ hye).1, (hyb ye _ hye).2⟩

/-- C5 (witness): order 0, position 1. -/
theorem claim_C5_witness : inBox (Lib.decode 0 1) :=
  (claim_C5 0 1 (by decide) (by decide)).1

/-- C9: every segment the iterator actually produces is axis-aligned and
spans exactly one grid cell: at even levels the endpoints share their y
coordinate and the x coordinates advance by exactly `1 / H`; at odd levels
they share their x coordinate and the y coordinates advance by exactly
`SCALE_HEIGHT / V`. -/
theorem claim_C9 (o p : Nat) (hseg : (Lib.decode o p).isSeg = true)
    (hrun : ∀ q, q < p → 1 ≤ q → Lib.decode o q ≠ NextRes.fail) :
    axisAligned (Lib.order_index p) (Lib.decode o p) := by
  obtain ⟨k, off, hoff, hp, hk31d, hd⟩ := yields_cases hseg hrun
  have hk31 : k ≤ 31 := by
    rcases hk31d with h | h
    · omega
    · omega
  have hoi : Lib.order_index p = k := by
    rw [hp]
    exact order_index_eq (by omega) (Nat.le_add_right _ _) (by
      have : (2:Nat) ^ (k + 1) = 2 ^ k * 2 := Nat.pow_succ ..
      omega)
  rw [hoi, hd]
  obtain ⟨xs, ys, xe, ye, heq, hxs, hxe, hys, hye, hodd, heven⟩ := cleanSeg_cases k off hoff
  rw [heq]
  simp only [axisAligned]
  constructor
  · intro hk0
    obtain ⟨hyeq, hxeq⟩ := heven hk0
    constructor
    · rw [hyeq]
    · rw [hxeq]
      push_cast
      ring
  · intro hk1
    obtain ⟨hxeq, hyeq⟩ := hodd hk1
    constructor
    · rw [hxeq]
    · rw [hyeq]
      push_cast
      ring

/-- C9 (witness): order 1, position 2 (the first odd-level segment). -/
theorem claim_C9_witness : axisAligned (Lib.order_index 2) (Lib.decode 1 2) :=
  claim_C9 1 2 (by decide) (by decide)

/-- C4: the order-0 sequence starts at counter 0, yields exactly one
segment, the horizontal bar from (1/4, SCALE_HEIGHT/2) to
(3/4, SCALE_HEIGHT/2), and then signals end of sequence; the order-1
sequence yields that bar and then the two vertical segments at x = 1/4 and
x = 3/4 from y = SCALE_HEIGHT/4 to y = 3 SCALE_HEIGHT/4, then signals end
of sequence.  The exact rational coordinates lie within 10⁻⁹ of the
decimal values quoted in the claim (0.25/0.75 are exact). -/
theorem claim_C4 :
    Lib.HTreeIterator.next (Lib.HTree.intoIter (Lib.HTree.new 0)) =
      (Lib.decode 0 1, { h_tree := Lib.HTree.new 0, index := 1 }) ∧
    Lib.decode 0 1 =
      NextRes.seg ((1 / 4, Lib.SCALE_HEIGHT / 2), (3 / 4, Lib.SCALE_HEIGHT / 2)) ∧
    Lib.decode 0 2 = NextRes.done ∧
    Lib.decode 1 1 =
      NextRes.seg ((1 / 4, Lib.SCALE_HEIGHT / 2), (3 / 4, Lib.SCALE_HEIGHT / 2)) ∧
    Lib.decode 1 2 =
      NextRes.seg ((1 / 4, Lib.SCALE_HEIGHT / 4), (1 / 4, 3 * Lib.SCALE_HEIGHT / 4)) ∧
    Lib.decode 1 3 =
      NextRes.seg ((3 / 4, Lib.SCALE_HEIGHT / 4), (3 / 4, 3 * Lib.SCALE_HEIGHT / 4)) ∧
    Lib.decode 1 4 = NextRes.done ∧
    (353553391 / 10 ^ 9 - 1 / 10 ^ 9 < Lib.SCALE_HEIGHT / 2 ∧
      Lib.SCALE_HEIGHT / 2 < 353553391 / 10 ^ 9 + 1 / 10 ^ 9) ∧
    (176776695 / 10 ^ 9 - 1 / 10 ^ 9 < Lib.SCALE_HEIGHT / 4 ∧
      Lib.SCALE_HEIGHT / 4 < 176776695 / 10 ^ 9 + 1 / 10 ^ 9) ∧
    (530330086 / 10 ^ 9 - 1 / 10 ^ 9 < 3 * Lib.SCALE_HEIGHT / 4 ∧
      3 * Lib.SCALE_HEIGHT / 4 < 530330086 / 10 ^ 9 + 1 / 10 ^ 9) := by
  have h01 := @decode_eq_seg 0 0 0 (by decide) (by decide) (by decide)
  have h11 := @decode_eq_seg 1 0 0 (by decide) (by decide) (by decide)
  have h12 := @decode_eq_seg 1 1 0 (by decide) (by decide) (by decide)
  have h13 := @decode_eq_seg 1 1 1 (by decide) (by decide) (by decide)
  norm_num at h01 h11 h12 h13
  have c00 : Lib.cleanSeg 0 0 =
      ((1 / 4, Lib.SCALE_HEIGHT / 2), (3 / 4, Lib.SCALE_HEIGHT / 2)) := by
    norm_num [Lib.cleanSeg, Lib.SCALE_HEIGHT]
  have c10 : Lib.cleanSeg 1 0 =
      ((1 / 4, Lib.SCALE_HEIGHT / 4), (1 / 4, 3 * Lib.SCALE_HEIGHT / 4)) := by
    norm_num [Lib.cleanSeg, Lib.SCALE_HEIGHT]
  have c11 : Lib.cleanSeg 1 1 =
      ((3 / 4, Lib.SCALE_HEIGHT / 4), (3 / 4, 3 * Lib.SCALE_HEIGHT / 4)) := by
    norm_num [Lib.cleanSeg, Lib.SCALE_HEIGHT]
  refine ⟨rfl, ?_, by decide, ?_, ?_, ?_, by decide, ?_, ?_, ?_⟩
  · rw [h01, c00]
  · rw [h11, c00]
  · rw [h12, c10]
  · rw [h13, c11]
  · constructor <;> norm_num [Lib.SCALE_HEIGHT]
  · constructor <;> norm_num [Lib.SCALE_HEIGHT]
  · constructor <;> norm_num [Lib.SCALE_HEIGHT]
